import Mathlib

/-!
Verification of the PPK2 serial-stream decoder (`src/ppk2_api.py`, class `PPK2_API`).

Shallow embedding conventions:
* Python integers are `ℤ` (arbitrary precision, arithmetic shift, sign-extended
  bitwise operations via `Int.land` / `Int.shiftRight`).
* Python floats are idealised as `ℚ`; the calibration constants parsed from the
  device metadata are modelled as already-populated rational values (every claim
  below presupposes a fully populated table).
* Python `bytes` values are `List ℕ`, one entry per byte.
* A method that can raise (a `KeyError` from a calibration-dict lookup) returns
  `Option`; `none` is the raised exception propagating out.
* Mutable attributes of the `PPK2_API` object are gathered in a `State`
  structure that the embedded methods thread explicitly.  The serial port
  itself is outside the model; a method that writes to the port returns the
  byte tuple it would write.
-/

namespace PPK2

/-- The one opcode of `PPK2_Command` used by the modelled methods:
`REGULATOR_SET = 0x0d`. -/
def REGULATOR_SET : ℤ := 0x0d

/-- `PPK2_API._twos_comp`: reinterpret a nonnegative int32 bit pattern as a
signed value; `if (val & (1 << (32 - 1))) != 0: val = val - (1 << 32)`. -/
def twos_comp (val : ℤ) : ℤ :=
  if Int.land val ((1 <<< (32 - 1) : ℕ) : ℤ) ≠ 0 then val - ((1 <<< 32 : ℕ) : ℤ) else val

/-- A stored bit mask as built by `_generate_mask`: the dict
`{"mask": mask, "pos": pos}`. -/
structure Mask where
  mask : ℤ
  pos : ℕ
deriving DecidableEq

/-- `PPK2_API._generate_mask`: `mask = ((2**bits-1) << pos)` followed by
`mask = self._twos_comp(mask)`.  The shift happens on a nonnegative value, so
it is modelled on `ℕ` and then cast. -/
def generate_mask (bits pos : ℕ) : Mask :=
  { mask := twos_comp (((2 ^ bits - 1) <<< pos : ℕ) : ℤ), pos := pos }

/-- `PPK2_API._get_masked_value`: `(value & meas["mask"]) >> meas["pos"]`.
Python bitwise `&` on possibly negative ints is the sign-extended `Int.land`,
and `>>` is the arithmetic `Int.shiftRight`. -/
def get_masked_value (value : ℤ) (meas : Mask) : ℤ :=
  (Int.land value meas.mask) >>> meas.pos

/-- `self.MEAS_ADC = self._generate_mask(14, 0)` (from `__init__`). -/
def MEAS_ADC : Mask := generate_mask 14 0

/-- `self.MEAS_RANGE = self._generate_mask(3, 14)` (from `__init__`). -/
def MEAS_RANGE : Mask := generate_mask 3 14

/-- `self.MEAS_LOGIC = self._generate_mask(8, 24)` (from `__init__`). -/
def MEAS_LOGIC : Mask := generate_mask 8 24

/-- The per-range calibration constants of `self.modifiers`, one inner dict per
constant, keyed by the range strings `"0"` .. `"4"`.  The claims all assume the
table has been populated by `_parse_metadata`, so each inner dict is modelled
as a total function on the five valid indices.  The scalar entries
(`Calibrated`, `HW`, `IA`) are never read by the modelled methods and are
omitted. -/
structure Modifiers where
  R : Fin 5 → ℚ
  GS : Fin 5 → ℚ
  GI : Fin 5 → ℚ
  O : Fin 5 → ℚ
  S : Fin 5 → ℚ
  I : Fin 5 → ℚ
  UG : Fin 5 → ℚ

/-- One inner-dict access `self.modifiers[k][str(current_range)]`: the keys
present are exactly `"0"` .. `"4"`, so any index outside `0 ≤ r < 5` raises a
`KeyError`, modelled as `none`. -/
def dictGet (tbl : Fin 5 → ℚ) (r : ℤ) : Option ℚ :=
  if h : 0 ≤ r ∧ r < 5 then some (tbl ⟨r.toNat, by omega⟩) else none

/-- The mutable attributes of a `PPK2_API` instance that the modelled methods
read or write.  `rolling_avg` / `rolling_avg4` are created by the first
`get_adc_result` call, hence `Option` with `none` meaning
attribute-not-yet-set.  `remainder_seq` / `remainder_len` are the two entries
of `self.remainder`; the source stores the length separately, and the two can
disagree (the stored length even goes negative on short input), so both are
modelled. -/
structure State where
  modifiers : Modifiers
  vdd_low : ℤ
  vdd_high : ℤ
  current_vdd : ℤ
  adc_mult : ℚ
  prev_rolling_avg : Option ℚ
  prev_rolling_avg4 : Option ℚ
  prev_range : Option ℤ
  rolling_avg : Option ℚ
  rolling_avg4 : Option ℚ
  remainder_seq : List ℕ
  remainder_len : ℤ

/-- `PPK2_API.__init__` applied to an already-parsed calibration table:
`vdd_low = 800`, `vdd_high = 5000`, `current_vdd = 0`,
`adc_mult = 1.8 / 163840`, and an empty remainder of stored length 0. -/
def initState (m : Modifiers) : State :=
  { modifiers := m
    vdd_low := 800
    vdd_high := 5000
    current_vdd := 0
    adc_mult := 1.8 / 163840
    prev_rolling_avg := none
    prev_rolling_avg4 := none
    prev_range := none
    rolling_avg := none
    rolling_avg4 := none
    remainder_seq := []
    remainder_len := 0 }

/-- `PPK2_API._convert_source_voltage`: clamp `mV` to
`[self.vdd_low, self.vdd_high]`, add the offset 32, and split into the two
command bytes.  `int(diff_to_baseline / 256)` truncates toward zero
(`Int.tdiv`); Python `%` on a positive modulus is `Int.emod`, which is the
Lean `%`. -/
def convert_source_voltage (s : State) (mV : ℤ) : ℤ × ℤ :=
  let mV := if mV < s.vdd_low then s.vdd_low else mV
  let mV := if mV > s.vdd_high then s.vdd_high else mV
  let offset : ℤ := 32
  let diff_to_baseline := mV - s.vdd_low + offset
  let base_b_1 : ℤ := 3
  let base_b_2 : ℤ := 0
  let ratio := Int.tdiv diff_to_baseline 256
  let remainder := diff_to_baseline % 256
  let set_b_1 := base_b_1 + ratio
  let set_b_2 := base_b_2 + remainder
  (set_b_1, set_b_2)

/-- `PPK2_API.set_source_voltage`: writes
`(PPK2_Command.REGULATOR_SET, b_1, b_2)` to the serial port and returns.  The
line `self.current_vdd = mV` is commented out in the source, so the instance
state is returned unchanged; the first component is the byte tuple written. -/
def set_source_voltage (s : State) (mV : ℤ) : (ℤ × ℤ × ℤ) × State :=
  let b := convert_source_voltage s mV
  ((REGULATOR_SET, b.1, b.2), s)

/-- `PPK2_API.get_adc_result`: six lookups into the calibration dicts (all with
the key `str(current_range)`, in source evaluation order O, R, UG, GS, GI, S,
I), the two-step polynomial, and the side effect
`self.rolling_avg = adc; self.rolling_avg4 = adc`. -/
def get_adc_result (s : State) (current_range : ℤ) (adc_value : ℤ) :
    Option (ℚ × State) := do
  let O_c ← dictGet s.modifiers.O current_range
  let R_c ← dictGet s.modifiers.R current_range
  let result_without_gain := ((adc_value : ℚ) - O_c) * (s.adc_mult / R_c)
  let UG_c ← dictGet s.modifiers.UG current_range
  let GS_c ← dictGet s.modifiers.GS current_range
  let GI_c ← dictGet s.modifiers.GI current_range
  let S_c ← dictGet s.modifiers.S current_range
  let I_c ← dictGet s.modifiers.I current_range
  let adc := UG_c * (result_without_gain * (GS_c * result_without_gain + GI_c)
      + (S_c + ((s.current_vdd : ℚ) / 1000) + I_c))
  return (adc, { s with rolling_avg := some adc, rolling_avg4 := some adc })

/-- `PPK2_API._handle_raw_data`: extract the three bitfields
(`min(range, 5)` clamp exactly as written, with the source comment
"5 is the number of parameters"), convert, and scale to microamps by `10**6`.
A `KeyError` from the dict lookups inside `get_adc_result` propagates. -/
def handle_raw_data (s : State) (adc_value : ℤ) : Option (ℚ × State) := do
  let current_measurement_range := min (get_masked_value adc_value MEAS_RANGE) 5
  let adc_result := get_masked_value adc_value MEAS_ADC * 4
  let bits := get_masked_value adc_value MEAS_LOGIC
  let (r, s1) ← get_adc_result s current_measurement_range adc_result
  let analog_value := r * 10 ^ 6
  return (analog_value, s1)

/-- `PPK2_API._digital_to_analog`: `int.from_bytes(adc_value, byteorder="little",
signed=False)`; the first byte is least significant. -/
def digital_to_analog (adc_value : List ℕ) : ℕ :=
  adc_value.foldr (fun b acc => b + 256 * acc) 0

/-- Normalise one bound of a Python slice `l[a:b]` of a list of the given
length: a negative index counts from the end (clamped below at 0), a
nonnegative index is clamped above at the length. -/
def sliceBound (length : ℕ) (i : ℤ) : ℕ :=
  if i < 0 then (i + length).toNat else min i.toNat length

/-- Python slice `l[a:b]` (step 1) with int bounds, including the negative and
out-of-range conventions. -/
def pySlice (l : List ℕ) (a b : ℤ) : List ℕ :=
  (l.take (sliceBound l.length b)).drop (sliceBound l.length a)

/-- The `while offset <= len(buf) - sample_size` loop of
`average_of_sampling_period`, threading the running sum, the sample count, the
byte offset, and the instance state.  Each iteration decodes
`buf[offset:offset + sample_size]` and advances `offset` by 4. -/
def sampling_loop (s : State) (buf : List ℕ) (offset : ℤ) (measurement_avg : ℚ)
    (num_samples : ℕ) : Option (ℚ × ℕ × ℤ × State) :=
  if h : offset ≤ (buf.length : ℤ) - 4 then
    let next_val := pySlice buf offset (offset + 4)
    let offset2 := offset + 4
    let adc_val := digital_to_analog next_val
    match handle_raw_data s (adc_val : ℤ) with
    | none => none
    | some (v, s1) => sampling_loop s1 buf offset2 (measurement_avg + v) (num_samples + 1)
  else
    some (measurement_avg, num_samples, offset, s)
termination_by ((buf.length : ℤ) + 4 - offset).toNat
decreasing_by omega

/-- `PPK2_API.average_of_sampling_period`: unconditionally decode the
remainder-prefixed first reading
`(self.remainder["sequence"] + buf[0:sample_size-offset])[:4]`, run the word
loop, store `buf[offset:len(buf)]` and `len(buf)-offset` as the new remainder,
and return `measurement_avg / num_samples`.  The `print` call is a pure side
effect and is not modelled. -/
def average_of_sampling_period (s : State) (buf : List ℕ) : Option (ℚ × State) := do
  let sample_size : ℤ := 4
  let offset := s.remainder_len
  let measurement_avg : ℚ := 0
  let num_samples : ℕ := 0
  let first_reading := pySlice (s.remainder_seq ++ pySlice buf 0 (sample_size - offset)) 0 4
  let adc_val := digital_to_analog first_reading
  let (v, s1) ← handle_raw_data s (adc_val : ℤ)
  let measurement_avg := measurement_avg + v
  let num_samples := num_samples + 1
  let offset := sample_size - offset
  let (measurement_avg, num_samples, offset, s2) ←
    sampling_loop s1 buf offset measurement_avg num_samples
  let s3 := { s2 with
    remainder_seq := pySlice buf offset (buf.length : ℤ)
    remainder_len := (buf.length : ℤ) - offset }
  return (measurement_avg / (num_samples : ℚ), s3)

/-! ### Specification-side definitions

These are written from the words of the specification (not from the source)
and are used to compare the embedded code against the spec. -/

/-- The calibration polynomial exactly as section 4.4 of the spec states it:
`resultWithoutGain = (rawAdc - O) * (adcMultiplier / R)` and
`adc = UG * (resultWithoutGain * (GS*resultWithoutGain + GI) +
(S + regulatorVoltage/1000 + I))`, with `regulatorVoltage` in millivolts. -/
def spec_calibration (R GS GI O S I UG adcMultiplier regulatorVoltage rawAdc : ℚ) : ℚ :=
  let resultWithoutGain := (rawAdc - O) * (adcMultiplier / R)
  UG * (resultWithoutGain * (GS * resultWithoutGain + GI) + (S + regulatorVoltage / 1000 + I))

/-- The spec polynomial applied to the constants an instance state holds for
range index `i`. -/
def calibValue (s : State) (i : Fin 5) (a : ℤ) : ℚ :=
  spec_calibration (s.modifiers.R i) (s.modifiers.GS i) (s.modifiers.GI i) (s.modifiers.O i)
    (s.modifiers.S i) (s.modifiers.I i) (s.modifiers.UG i) s.adc_mult (s.current_vdd : ℚ) (a : ℚ)

/-- The complete consecutive non-overlapping 4-byte groups of a byte sequence,
each assembled into a word (spec section 4.1: the words a lossless reassembler
must emit from a logical byte sequence). -/
def alignedWords : List ℕ → List ℕ
  | b0 :: b1 :: b2 :: b3 :: rest => digital_to_analog [b0, b1, b2, b3] :: alignedWords rest
  | _ => []

/-- The current value (µA) a given word decodes to from a given state, ignoring
the rolling-average side effect. -/
def sampleValue (s : State) (w : ℕ) : Option ℚ :=
  (handle_raw_data s (w : ℤ)).map Prod.fst

/-- The current values of a list of words, all decoded against one state
(legitimate because decoding only mutates the rolling-average diagnostics). -/
def valsOf (s : State) : List ℕ → Option (List ℚ)
  | [] => some []
  | w :: ws => do
    let v ← sampleValue s w
    let vs ← valsOf s ws
    return (v :: vs)

/-- Reference fold: decode a list of words in sequence, threading the state and
accumulating the sum and count, exactly as the source loop does. -/
def runWords (s : State) (measurement_avg : ℚ) (num_samples : ℕ) :
    List ℕ → Option (ℚ × ℕ × State)
  | [] => some (measurement_avg, num_samples, s)
  | w :: ws =>
    match handle_raw_data s (w : ℤ) with
    | none => none
    | some (v, s1) => runWords s1 (measurement_avg + v) (num_samples + 1) ws

/-- The calibration table of the end-to-end scenario in spec section 8: every
range has `R = 1, GS = 0, GI = 1, O = 0, S = 0, I = 0, UG = 1`. -/
def specTable : Modifiers :=
  { R := fun _ => 1, GS := fun _ => 0, GI := fun _ => 1, O := fun _ => 0,
    S := fun _ => 0, I := fun _ => 0, UG := fun _ => 1 }

/-- A freshly constructed instance holding the scenario table (so
`current_vdd = 0`, `adc_mult = 1.8/163840`, empty remainder). -/
def specState : State := initState specTable

/-- The scenario instance mid-stream: two leftover bytes (values 1 and 2)
carried in the remainder. -/
def c7State : State :=
  { specState with remainder_seq := [1, 2], remainder_len := 2 }

/-- The scenario instance after an earlier conversion has written the
rolling-average diagnostics. -/
def rolledState : State :=
  { specState with rolling_avg := some (9 / 50), rolling_avg4 := some (9 / 50) }

/-- The synthesized sample word of the spec bitfield round-trip test: range 2
at bit 14, pre-scale ADC count 100 at bit 0, logic bits `0xAB` at bit 24. -/
def c6_word : ℤ := 100 + 2 * 2 ^ 14 + 0xAB * 2 ^ 24

/-! ### Helper lemmas -/

lemma get_adc_result_pos (s : State) (r a : ℤ) (h5 : 0 ≤ r ∧ r < 5) :
    get_adc_result s r a = some (calibValue s ⟨r.toNat, by omega⟩ a,
      { s with rolling_avg := some (calibValue s ⟨r.toNat, by omega⟩ a),
               rolling_avg4 := some (calibValue s ⟨r.toNat, by omega⟩ a) }) := by
  simp only [get_adc_result, dictGet, dif_pos h5]
  rfl

lemma get_adc_result_neg (s : State) (r a : ℤ) (h5 : ¬ (0 ≤ r ∧ r < 5)) :
    get_adc_result s r a = none := by
  simp only [get_adc_result, dictGet, dif_neg h5]
  rfl

lemma handle_raw_data_eq (s : State) (a : ℤ) :
    handle_raw_data s a =
      (get_adc_result s (min (get_masked_value a MEAS_RANGE) 5)
        (get_masked_value a MEAS_ADC * 4)).map (fun p => (p.1 * 10 ^ 6, p.2)) := by
  cases hg : get_adc_result s (min (get_masked_value a MEAS_RANGE) 5)
      (get_masked_value a MEAS_ADC * 4) with
  | none => simp [handle_raw_data, hg]
  | some p => simp [handle_raw_data, hg]

lemma sampling_loop_stop (s : State) (buf : List ℕ) (offset : ℤ) (acc : ℚ) (num : ℕ)
    (h : ¬ offset ≤ (buf.length : ℤ) - 4) :
    sampling_loop s buf offset acc num = some (acc, num, offset, s) := by
  rw [sampling_loop.eq_def, dif_neg h]

lemma average_no_loop (s : State) (buf : List ℕ) (v : ℚ) (s1 : State)
    (h0 : handle_raw_data s
      ((digital_to_analog
        (pySlice (s.remainder_seq ++ pySlice buf 0 (4 - s.remainder_len)) 0 4) : ℕ) : ℤ)
          = some (v, s1))
    (hstop : ¬ (4 - s.remainder_len) ≤ (buf.length : ℤ) - 4) :
    average_of_sampling_period s buf = some ((0 + v) / ((0 + 1 : ℕ) : ℚ),
      { s1 with remainder_seq := pySlice buf (4 - s.remainder_len) (buf.length : ℤ),
                remainder_len := (buf.length : ℤ) - (4 - s.remainder_len) }) := by
  simp only [average_of_sampling_period, h0, Option.bind_some,
    sampling_loop_stop _ _ _ _ _ hstop]
  rfl

lemma MEAS_ADC_eq : MEAS_ADC = ⟨16383, 0⟩ := by decide

lemma MEAS_LOGIC_eq : MEAS_LOGIC = ⟨-16777216, 24⟩ := by decide

lemma adc_extract (v : ℕ) :
    get_masked_value (v : ℤ) MEAS_ADC = (((v >>> 0) &&& 0x3FFF : ℕ) : ℤ) := by
  have h1 : get_masked_value (v : ℤ) MEAS_ADC = (((v &&& 16383) >>> 0 : ℕ) : ℤ) := rfl
  rw [h1]
  norm_num [Nat.shiftRight_zero]

lemma logic_extract (v : ℕ) (hv : v < 2 ^ 32) :
    get_masked_value (v : ℤ) MEAS_LOGIC = (((v >>> 24) &&& 0xFF : ℕ) : ℤ) := by
  have h1 : get_masked_value (v : ℤ) MEAS_LOGIC = ((Nat.ldiff v 16777215 >>> 24 : ℕ) : ℤ) := rfl
  rw [h1]
  congr 1
  apply Nat.eq_of_testBit_eq
  intro i
  have h24 : (16777215 : ℕ) = 2 ^ 24 - 1 := by norm_num
  have h255 : (0xFF : ℕ) = 2 ^ 8 - 1 := by norm_num
  rw [Nat.testBit_shiftRight, Nat.testBit_ldiff, Nat.testBit_land, Nat.testBit_shiftRight,
    h24, h255, Nat.testBit_two_pow_sub_one, Nat.testBit_two_pow_sub_one]
  by_cases hi : i < 8
  · simp [hi, Nat.not_lt.mpr (by omega : 24 ≤ 24 + i)]
  · have hbit : v.testBit (24 + i) = false :=
      Nat.testBit_lt_two_pow
        (lt_of_lt_of_le hv (Nat.pow_le_pow_right (by norm_num) (by omega)))
    simp [hbit, hi]

lemma alignedWords_short (l : List ℕ) (h : l.length < 4) : alignedWords l = [] := by
  rcases l with _ | ⟨a, _ | ⟨b, _ | ⟨c, _ | ⟨d, rest⟩⟩⟩⟩
  · rfl
  · rfl
  · rfl
  · rfl
  · simp only [List.length_cons] at h
    omega

lemma alignedWords_cons (l : List ℕ) (h : 4 ≤ l.length) :
    alignedWords l = digital_to_analog (l.take 4) :: alignedWords (l.drop 4) := by
  rcases l with _ | ⟨a, _ | ⟨b, _ | ⟨c, _ | ⟨d, rest⟩⟩⟩⟩
  · simp at h
  · simp at h
  · simp at h
  · simp at h
  · rfl

lemma alignedWords_length : ∀ l : List ℕ, (alignedWords l).length = l.length / 4
  | [] => by rw [alignedWords_short _ (by norm_num)]; norm_num
  | [_] => by rw [alignedWords_short _ (by norm_num)]; norm_num
  | [_, _] => by rw [alignedWords_short _ (by norm_num)]; norm_num
  | [_, _, _] => by rw [alignedWords_short _ (by norm_num)]; norm_num
  | a :: b :: c :: d :: rest => by
    rw [alignedWords_cons _ (by simp only [List.length_cons]; omega)]
    simp only [List.length_cons, List.length_drop, List.drop_succ_cons, List.drop_zero]
    rw [alignedWords_length rest]
    omega

lemma get_adc_result_state (s : State) (r a : ℤ) (v : ℚ) (s3 : State)
    (h : get_adc_result s r a = some (v, s3)) :
    s3 = { s with rolling_avg := some v, rolling_avg4 := some v } := by
  by_cases h5 : 0 ≤ r ∧ r < 5
  · rw [get_adc_result_pos s r a h5] at h
    simp only [Option.some.injEq, Prod.mk.injEq] at h
    rw [← h.2, h.1]
  · rw [get_adc_result_neg s r a h5] at h
    cases h

lemma handle_raw_data_state (s : State) (a : ℤ) (v : ℚ) (s1 : State)
    (h : handle_raw_data s a = some (v, s1)) :
    s1.modifiers = s.modifiers ∧ s1.adc_mult = s.adc_mult ∧
      s1.current_vdd = s.current_vdd := by
  rw [handle_raw_data_eq] at h
  cases hg : get_adc_result s (min (get_masked_value a MEAS_RANGE) 5)
      (get_masked_value a MEAS_ADC * 4) with
  | none => rw [hg] at h; cases h
  | some p =>
    obtain ⟨pv, ps⟩ := p
    rw [hg] at h
    simp only [Option.map_some', Option.some.injEq, Prod.mk.injEq] at h
    have hs := get_adc_result_state _ _ _ _ _ hg
    rw [← h.2, hs]
    exact ⟨rfl, rfl, rfl⟩

lemma handle_raw_data_fst_congr (s1 s2 : State) (a : ℤ)
    (hm : s1.modifiers = s2.modifiers) (hmult : s1.adc_mult = s2.adc_mult)
    (hvdd : s1.current_vdd = s2.current_vdd) :
    (handle_raw_data s1 a).map Prod.fst = (handle_raw_data s2 a).map Prod.fst := by
  rw [handle_raw_data_eq, handle_raw_data_eq]
  by_cases h5 : 0 ≤ min (get_masked_value a MEAS_RANGE) 5 ∧
      min (get_masked_value a MEAS_RANGE) 5 < 5
  · rw [get_adc_result_pos _ _ _ h5, get_adc_result_pos _ _ _ h5]
    simp [calibValue, hm, hmult, hvdd]
  · rw [get_adc_result_neg _ _ _ h5, get_adc_result_neg _ _ _ h5]

lemma sampleValue_congr (s1 s2 : State)
    (hm : s1.modifiers = s2.modifiers) (hmult : s1.adc_mult = s2.adc_mult)
    (hvdd : s1.current_vdd = s2.current_vdd) :
    sampleValue s1 = sampleValue s2 :=
  funext fun w => handle_raw_data_fst_congr s1 s2 (w : ℤ) hm hmult hvdd

lemma valsOf_congr (s1 s2 : State)
    (hm : s1.modifiers = s2.modifiers) (hmult : s1.adc_mult = s2.adc_mult)
    (hvdd : s1.current_vdd = s2.current_vdd) : ∀ ws, valsOf s1 ws = valsOf s2 ws
  | [] => rfl
  | w :: ws => by
    have h1 := sampleValue_congr s1 s2 hm hmult hvdd
    show (do
      let v ← sampleValue s1 w
      let vs ← valsOf s1 ws
      return (v :: vs)) = (do
      let v ← sampleValue s2 w
      let vs ← valsOf s2 ws
      return (v :: vs))
    rw [h1, valsOf_congr s1 s2 hm hmult hvdd ws]

lemma valsOf_length (s : State) : ∀ ws vs, valsOf s ws = some vs → vs.length = ws.length
  | [], vs, h => by
    simp only [valsOf, Option.some.injEq] at h
    rw [← h]
    rfl
  | w :: ws, vs, h => by
    simp only [valsOf] at h
    cases hsv : sampleValue s w with
    | none => rw [hsv] at h; cases h
    | some v =>
      rw [hsv] at h
      cases hvs : valsOf s ws with
      | none => rw [hvs] at h; cases h
      | some vs2 =>
        rw [hvs] at h
        have h2 : v :: vs2 = vs := by
          have h3 : some (v :: vs2) = some vs := h
          exact Option.some.inj h3
        rw [← h2]
        simp only [List.length_cons, valsOf_length s ws vs2 hvs]

lemma runWords_spec : ∀ (ws : List ℕ) (s : State) (acc : ℚ) (num : ℕ),
    (runWords s acc num ws).map (fun t => (t.1, t.2.1)) =
      (valsOf s ws).map (fun vs => (acc + vs.sum, num + vs.length))
  | [], s, acc, num => by simp [runWords, valsOf]
  | w :: ws, s, acc, num => by
    cases hh : handle_raw_data s (w : ℤ) with
    | none =>
      have hsv : sampleValue s w = none := by simp [sampleValue, hh]
      simp [runWords, hh, valsOf, hsv]
    | some p =>
      obtain ⟨v, s1⟩ := p
      have hsv : sampleValue s w = some v := by simp [sampleValue, hh]
      have hst := handle_raw_data_state s (w : ℤ) v s1 hh
      have hv : valsOf s1 ws = valsOf s ws :=
        valsOf_congr s1 s hst.1 hst.2.1 hst.2.2 ws
      simp only [runWords, hh]
      rw [runWords_spec ws s1 (acc + v) (num + 1), hv]
      simp only [valsOf, hsv, Option.bind_some]
      cases hvs : valsOf s ws with
      | none => rfl
      | some vs =>
        show some (acc + v + vs.sum, num + 1 + vs.length)
          = some (acc + (v :: vs).sum, num + (v :: vs).length)
        simp only [Option.some.injEq, Prod.mk.injEq, List.sum_cons, List.length_cons]
        constructor
        · ring
        · omega

lemma pySlice_loop_window (buf : List ℕ) (off : ℤ) (h0 : 0 ≤ off)
    (hc : off + 4 ≤ (buf.length : ℤ)) :
    pySlice buf off (off + 4) = (buf.drop off.toNat).take 4 := by
  unfold pySlice sliceBound
  rw [if_neg (show ¬ off + 4 < 0 by omega), if_neg (show ¬ off < 0 by omega)]
  rw [show min (off + 4).toNat buf.length = off.toNat + 4 from by omega,
    show min off.toNat buf.length = off.toNat from by omega]
  rw [List.drop_take]
  congr 1
  omega

lemma sampling_loop_eq (buf : List ℕ) (off : ℤ) (s : State) (acc : ℚ) (num : ℕ)
    (h0 : 0 ≤ off) :
    sampling_loop s buf off acc num =
      (runWords s acc num (alignedWords (buf.drop off.toNat))).map
        (fun t => (t.1, t.2.1,
          off + 4 * (((buf.length - off.toNat) / 4 : ℕ) : ℤ), t.2.2)) := by
  rw [sampling_loop.eq_def]
  by_cases hc : off ≤ (buf.length : ℤ) - 4
  · rw [dif_pos hc]
    have hlen4 : 4 ≤ (buf.drop off.toNat).length := by
      rw [List.length_drop]
      omega
    have hslice : pySlice buf off (off + 4) = (buf.drop off.toNat).take 4 :=
      pySlice_loop_window buf off h0 (by omega)
    rw [alignedWords_cons _ hlen4]
    show (match handle_raw_data s
        ((digital_to_analog (pySlice buf off (off + 4)) : ℕ) : ℤ) with
      | none => none
      | some (v, s1) => sampling_loop s1 buf (off + 4) (acc + v) (num + 1)) = _
    rw [hslice]
    cases hh : handle_raw_data s
        ((digital_to_analog ((buf.drop off.toNat).take 4) : ℕ) : ℤ) with
    | none =>
      rw [show runWords s acc num (digital_to_analog ((buf.drop off.toNat).take 4)
          :: alignedWords ((buf.drop off.toNat).drop 4)) = none from by
        simp only [runWords, hh]]
      rfl
    | some p =>
      obtain ⟨v, s1⟩ := p
      rw [show runWords s acc num (digital_to_analog ((buf.drop off.toNat).take 4)
          :: alignedWords ((buf.drop off.toNat).drop 4))
          = runWords s1 (acc + v) (num + 1) (alignedWords ((buf.drop off.toNat).drop 4))
          from by simp only [runWords, hh]]
      have hdrop : (buf.drop off.toNat).drop 4 = buf.drop ((off + 4).toNat) := by
        rw [List.drop_drop]
        congr 1
        omega
      rw [hdrop]
      show sampling_loop s1 buf (off + 4) (acc + v) (num + 1) = _
      rw [sampling_loop_eq buf (off + 4) s1 (acc + v) (num + 1) (by omega)]
      have hoff : (off + 4) + 4 * (((buf.length - (off + 4).toNat) / 4 : ℕ) : ℤ)
          = off + 4 * (((buf.length - off.toNat) / 4 : ℕ) : ℤ) := by
        rw [show (buf.length - off.toNat) / 4
            = (buf.length - (off + 4).toNat) / 4 + 1 from by omega]
        push_cast
        ring
      rw [hoff]
  · rw [dif_neg hc]
    rw [alignedWords_short _ (by rw [List.length_drop]; omega)]
    rw [show (buf.length - off.toNat) / 4 = 0 from by omega]
    show some (acc, num, off, s) = some (acc, num, off + 4 * ((0 : ℕ) : ℤ), s)
    norm_num
termination_by ((buf.length : ℤ) + 4 - off).toNat
decreasing_by omega

/-! ### Claim theorems -/

/-- C1. The claim asserts lossless reassembly for every sequence of chunks,
including the split-fuzzing example with single-byte chunks.  The code instead
decodes the remainder-prefixed first reading unconditionally, even when fewer
than 4 bytes are available: feeding the single byte 65 to a fresh decoder
consumes that byte into a bogus 1-byte word, leaves an empty remainder, and
stores the negative remainder length -3, so the byte is lost and the
concatenation guarantee fails. -/
theorem single_byte_chunk_loses_data :
    (average_of_sampling_period specState [65]).map
        (fun p => (p.2.remainder_seq, p.2.remainder_len)) = some ([], -3) := by
  have hw : ((digital_to_analog
      (pySlice (specState.remainder_seq ++ pySlice [65] 0 (4 - specState.remainder_len)) 0 4) : ℕ) : ℤ)
      = 65 := by decide
  have h0 : handle_raw_data specState ((digital_to_analog
      (pySlice (specState.remainder_seq ++ pySlice [65] 0 (4 - specState.remainder_len)) 0 4) : ℕ) : ℤ)
      = some (calibValue specState ⟨(0 : ℤ).toNat, by norm_num⟩ 260 * 10 ^ 6,
          { specState with
              rolling_avg := some (calibValue specState ⟨(0 : ℤ).toNat, by norm_num⟩ 260),
              rolling_avg4 := some (calibValue specState ⟨(0 : ℤ).toNat, by norm_num⟩ 260) }) := by
    rw [hw, handle_raw_data_eq,
      show min (get_masked_value 65 MEAS_RANGE) 5 = 0 from by decide,
      show get_masked_value 65 MEAS_ADC * 4 = 260 from by decide,
      get_adc_result_pos _ _ _ (by decide)]
    rfl
  rw [average_no_loop _ _ _ _ h0 (by decide)]
  rfl

/-- C2. The claim says the decoded range is min of the 3-bit field and 4, and
that the table lookup for the clamped range succeeds.  The source clamps with
`min(range, 5)` instead, so the word `98304 = 6 << 14` (raw range field 6)
clamps to 5, the dict lookup at key 5 raises `KeyError` (`none`), and the whole
conversion fails even on a fully populated table. -/
theorem range_six_clamps_to_five_and_lookup_fails :
    get_masked_value 98304 MEAS_RANGE = 6 ∧
    min (get_masked_value 98304 MEAS_RANGE) 5 = 5 ∧
    dictGet specTable.R 5 = none ∧
    handle_raw_data specState 98304 = none :=
  ⟨by decide, by decide, rfl, rfl⟩

/-- C3. The claim says a call whose remainder plus chunk holds fewer than 4
bytes emits nothing and accumulates the bytes, and an empty chunk is a no-op.
The code instead always decodes one first reading: on a fresh decoder and an
empty chunk it emits one sample (the word assembled from zero bytes, value 0,
here converting to 0 µA) and rewrites the remainder length from 0 to -4. -/
theorem empty_chunk_emits_sample_and_corrupts_remainder :
    (average_of_sampling_period specState []).map
        (fun p => (p.1, p.2.remainder_seq, p.2.remainder_len)) = some (0, [], -4) := by
  have hw : ((digital_to_analog
      (pySlice (specState.remainder_seq ++ pySlice [] 0 (4 - specState.remainder_len)) 0 4) : ℕ) : ℤ)
      = 0 := by decide
  have h0 : handle_raw_data specState ((digital_to_analog
      (pySlice (specState.remainder_seq ++ pySlice [] 0 (4 - specState.remainder_len)) 0 4) : ℕ) : ℤ)
      = some (calibValue specState ⟨(0 : ℤ).toNat, by norm_num⟩ 0 * 10 ^ 6,
          { specState with
              rolling_avg := some (calibValue specState ⟨(0 : ℤ).toNat, by norm_num⟩ 0),
              rolling_avg4 := some (calibValue specState ⟨(0 : ℤ).toNat, by norm_num⟩ 0) }) := by
    rw [hw, handle_raw_data_eq,
      show min (get_masked_value 0 MEAS_RANGE) 5 = 0 from by decide,
      show get_masked_value 0 MEAS_ADC * 4 = 0 from by decide,
      get_adc_result_pos _ _ _ (by decide)]
    rfl
  rw [average_no_loop _ _ _ _ h0 (by decide)]
  norm_num [calibValue, spec_calibration, specState, initState, specTable]
  rfl

/-- C4 counterexample. With the range-0 scenario constants and rawAdc 16384 the
code produces exactly 180000 µA, not approximately 180 µA: the 180.0 figure in
the claim mis-evaluates its own formula by a factor of 1000. -/
theorem quarter_scale_reading_is_180000_uA :
    (get_adc_result specState 0 16384).map (fun p => p.1 * 10 ^ 6) = some 180000 ∧
    (100 : ℚ) < |(180000 : ℚ) - 180| := by
  constructor
  · rw [get_adc_result_pos _ _ _ (by decide)]
    norm_num [calibValue, spec_calibration, specState, initState, specTable]
  · rw [abs_of_nonneg (by norm_num)]
    norm_num

/-- C4 (amended). For every state with a populated table and every valid range
index, `get_adc_result` computes exactly the two-step spec polynomial
(resultWithoutGain, then the gain and offset combination with the
regulatorVoltage/1000 term), and the end-to-end scenario value at rawAdc 16384
is 180000 µA (not 180). -/
theorem calibration_formula_and_endpoint :
    (∀ (s : State) (i : Fin 5) (a : ℤ),
      (get_adc_result s (i : ℤ) a).map Prod.fst =
        some (spec_calibration (s.modifiers.R i) (s.modifiers.GS i) (s.modifiers.GI i)
          (s.modifiers.O i) (s.modifiers.S i) (s.modifiers.I i) (s.modifiers.UG i)
          s.adc_mult (s.current_vdd : ℚ) (a : ℚ))) ∧
    (get_adc_result specState 0 16384).map (fun p => p.1 * 10 ^ 6) = some 180000 := by
  constructor
  · intro s i a
    have h5 : 0 ≤ (i : ℤ) ∧ (i : ℤ) < 5 := by
      constructor
      · exact Int.natCast_nonneg _
      · exact_mod_cast i.isLt
    rw [get_adc_result_pos _ _ _ h5]
    have hidx : (⟨((i : ℤ)).toNat, by omega⟩ : Fin 5) = i := by
      apply Fin.ext
      simp
    rw [hidx]
    rfl
  · rw [get_adc_result_pos _ _ _ (by decide)]
    norm_num [calibValue, spec_calibration, specState, initState, specTable]

/-- C5. The claim says a commanded source voltage is read back by the converter
as regulatorVoltage.  In the source the update `self.current_vdd = mV` inside
`set_source_voltage` is commented out, so the command leaves the instance state
untouched (current_vdd stays 0) and a subsequent conversion omits the
3000/1000 = 3 additive term the claim requires. -/
theorem set_source_voltage_does_not_propagate :
    (set_source_voltage specState 3000).2.current_vdd = 0 ∧
    (set_source_voltage specState 3000).2 = specState ∧
    (get_adc_result (set_source_voltage specState 3000).2 0 16384).map Prod.fst
      = some (9 / 50) ∧
    (9 : ℚ) / 50 ≠ 9 / 50 + 3000 / 1000 := by
  refine ⟨rfl, rfl, ?_, by norm_num⟩
  rw [show (set_source_voltage specState 3000).2 = specState from rfl,
    get_adc_result_pos _ _ _ (by decide)]
  norm_num [calibValue, spec_calibration, specState, initState, specTable]

/-- C6. For every 32-bit word the decoded rawAdc is the low 14-bit field times
4 and the decoded logicBits are the top 8 bits; the synthesized word with
range 2, pre-scale rawAdc 100 and logicBits 0xAB decodes to exactly
range 2, rawAdc 400, logicBits 0xAB. -/
theorem bitfield_extraction :
    (∀ v : ℕ, v < 2 ^ 32 →
      get_masked_value (v : ℤ) MEAS_ADC * 4 = (((v >>> 0) &&& 0x3FFF : ℕ) : ℤ) * 4 ∧
      get_masked_value (v : ℤ) MEAS_LOGIC = (((v >>> 24) &&& 0xFF : ℕ) : ℤ)) ∧
    (get_masked_value c6_word MEAS_RANGE = 2 ∧
     get_masked_value c6_word MEAS_ADC * 4 = 400 ∧
     get_masked_value c6_word MEAS_LOGIC = 0xAB) := by
  constructor
  · intro v hv
    refine ⟨?_, logic_extract v hv⟩
    rw [adc_extract]
    norm_num
  · have hc : c6_word = ((2868936804 : ℕ) : ℤ) := by norm_num [c6_word]
    refine ⟨by decide, by decide, ?_⟩
    rw [hc, logic_extract 2868936804 (by norm_num)]
    decide

/-- C6 witness: the universally quantified part instantiated at the synthesized
round-trip word 2868936804, which is 100 + (2 << 14) + (0xAB << 24). -/
theorem bitfield_extraction_witness :
    (2868936804 : ℕ) < 2 ^ 32 ∧
    (get_masked_value ((2868936804 : ℕ) : ℤ) MEAS_ADC * 4
        = ((((2868936804 : ℕ) >>> 0) &&& 0x3FFF : ℕ) : ℤ) * 4 ∧
      get_masked_value ((2868936804 : ℕ) : ℤ) MEAS_LOGIC
        = ((((2868936804 : ℕ) >>> 24) &&& 0xFF : ℕ) : ℤ)) :=
  ⟨by norm_num, bitfield_extraction.1 2868936804 (by norm_num)⟩

/-- C8. With a fixed table, adc multiplier and regulator voltage, the result of
`get_adc_result` is independent of the rolling-average diagnostics (the only
state the call mutates), so repeated calls with the same rawAdc and range
return identical values no matter how many conversions happen in between. -/
theorem calibration_determinism (s1 s2 : State) (r a : ℤ)
    (hm : s1.modifiers = s2.modifiers) (hmult : s1.adc_mult = s2.adc_mult)
    (hvdd : s1.current_vdd = s2.current_vdd) :
    (get_adc_result s1 r a).map Prod.fst = (get_adc_result s2 r a).map Prod.fst ∧
    ∀ v s3, get_adc_result s1 r a = some (v, s3) →
      s3.modifiers = s1.modifiers ∧ s3.adc_mult = s1.adc_mult ∧
      s3.current_vdd = s1.current_vdd := by
  by_cases h5 : 0 ≤ r ∧ r < 5
  · rw [get_adc_result_pos s1 r a h5, get_adc_result_pos s2 r a h5]
    constructor
    · simp [calibValue, hm, hmult, hvdd]
    · intro v s3 h
      simp only [Option.some.injEq, Prod.mk.injEq] at h
      rw [← h.2]
      exact ⟨rfl, rfl, rfl⟩
  · rw [get_adc_result_neg s1 r a h5, get_adc_result_neg s2 r a h5]
    exact ⟨rfl, fun v s3 h => by cases h⟩

/-- C8 witness: a fresh scenario instance and the same instance after an
earlier conversion has written the rolling-average fields give bit-identical
results for rawAdc 16384 on range 0. -/
theorem calibration_determinism_witness :
    (get_adc_result specState 0 16384).map Prod.fst
      = (get_adc_result rolledState 0 16384).map Prod.fst :=
  (calibration_determinism specState rolledState 0 16384 rfl rfl rfl).1

/-- C7. For a consistent remainder of length at most 3 and a chunk completing
at least one word, a successful call of average_of_sampling_period decodes
exactly floor((remainder + chunk length) / 4) samples, namely the current
values of the aligned words of remainder ++ chunk, and returns their
arithmetic mean. -/
theorem aggregator_count_and_mean (s : State) (buf : List ℕ) (avg : ℚ) (sf : State)
    (hlen : s.remainder_len = (s.remainder_seq.length : ℤ))
    (hr : s.remainder_seq.length ≤ 3)
    (hn : 4 ≤ s.remainder_seq.length + buf.length)
    (havg : average_of_sampling_period s buf = some (avg, sf)) :
    ∃ vs : List ℚ,
      valsOf s (alignedWords (s.remainder_seq ++ buf)) = some vs ∧
      vs.length = (s.remainder_seq.length + buf.length) / 4 ∧
      avg = vs.sum / (vs.length : ℚ) := by
  have hinner : pySlice buf 0 (4 - s.remainder_len)
      = buf.take (4 - s.remainder_seq.length) := by
    rw [hlen]
    unfold pySlice sliceBound
    rw [if_neg (show ¬ (4 : ℤ) - (s.remainder_seq.length : ℤ) < 0 by omega),
      if_neg (show ¬ (0 : ℤ) < 0 by omega)]
    rw [show ((4 : ℤ) - (s.remainder_seq.length : ℤ)).toNat
        = 4 - s.remainder_seq.length from by omega]
    rw [show min (4 - s.remainder_seq.length) buf.length
        = 4 - s.remainder_seq.length from by omega]
    rw [show min ((0 : ℤ)).toNat buf.length = 0 from by omega]
    rw [List.drop_zero]
  have hX : (s.remainder_seq ++ buf.take (4 - s.remainder_seq.length)).length = 4 := by
    simp only [List.length_append, List.length_take]
    omega
  have houter : pySlice (s.remainder_seq ++ buf.take (4 - s.remainder_seq.length)) 0 4
      = s.remainder_seq ++ buf.take (4 - s.remainder_seq.length) := by
    unfold pySlice sliceBound
    rw [if_neg (show ¬ (4 : ℤ) < 0 by omega), if_neg (show ¬ (0 : ℤ) < 0 by omega)]
    rw [hX]
    rw [show min ((4 : ℤ)).toNat 4 = 4 from by omega,
      show min ((0 : ℤ)).toNat 4 = 0 from by omega]
    rw [List.drop_zero]
    exact List.take_of_length_le (le_of_eq hX)
  have hfr : pySlice (s.remainder_seq ++ pySlice buf 0 (4 - s.remainder_len)) 0 4
      = s.remainder_seq ++ buf.take (4 - s.remainder_seq.length) := by
    rw [hinner, houter]
  have htake : (s.remainder_seq ++ buf).take 4
      = s.remainder_seq ++ buf.take (4 - s.remainder_seq.length) := by
    rw [List.take_append_eq_append_take,
      List.take_of_length_le (show s.remainder_seq.length ≤ 4 from by omega)]
  have hdrop4 : (s.remainder_seq ++ buf).drop 4
      = buf.drop (4 - s.remainder_seq.length) := by
    rw [List.drop_append_eq_append_drop,
      List.drop_eq_nil_of_le (show s.remainder_seq.length ≤ 4 from by omega),
      List.nil_append]
  have hwords : alignedWords (s.remainder_seq ++ buf)
      = digital_to_analog (s.remainder_seq ++ buf.take (4 - s.remainder_seq.length))
        :: alignedWords (buf.drop (4 - s.remainder_seq.length)) := by
    rw [alignedWords_cons _ (by rw [List.length_append]; omega), htake, hdrop4]
  cases hh : handle_raw_data s ((digital_to_analog
      (pySlice (s.remainder_seq ++ pySlice buf 0 (4 - s.remainder_len)) 0 4) : ℕ) : ℤ) with
  | none =>
    rw [show average_of_sampling_period s buf = none from by
      simp only [average_of_sampling_period, Option.bind_eq_bind, hh,
        Option.none_bind]] at havg
    exact Option.noConfusion havg
  | some p =>
    obtain ⟨v, s1⟩ := p
    cases hloop : sampling_loop s1 buf (4 - s.remainder_len) (0 + v) (0 + 1) with
    | none =>
      rw [show average_of_sampling_period s buf = none from by
        simp only [average_of_sampling_period, Option.bind_eq_bind, hh,
          Option.some_bind, hloop, Option.none_bind]] at havg
      exact Option.noConfusion havg
    | some t =>
      obtain ⟨m, num, off2, s2⟩ := t
      rw [show average_of_sampling_period s buf
          = some (m / (num : ℚ),
            { s2 with remainder_seq := pySlice buf off2 (buf.length : ℤ),
                      remainder_len := (buf.length : ℤ) - off2 }) from by
        simp only [average_of_sampling_period, Option.bind_eq_bind, hh,
          Option.some_bind, hloop]
        rfl] at havg
      simp only [Option.some.injEq, Prod.mk.injEq] at havg
      have hloop2 := hloop
      rw [hlen, sampling_loop_eq buf (4 - (s.remainder_seq.length : ℤ)) s1 (0 + v) (0 + 1)
        (by omega)] at hloop2
      rw [show ((4 : ℤ) - (s.remainder_seq.length : ℤ)).toNat
          = 4 - s.remainder_seq.length from by omega] at hloop2
      rw [Option.map_eq_some'] at hloop2
      obtain ⟨t, hrun, hF⟩ := hloop2
      simp only [Prod.mk.injEq] at hF
      have hspec := runWords_spec (alignedWords (buf.drop (4 - s.remainder_seq.length)))
        s1 (0 + v) (0 + 1)
      rw [hrun, Option.map_some'] at hspec
      have hspec2 := hspec.symm
      rw [Option.map_eq_some'] at hspec2
      obtain ⟨vs1, hvals1, hG⟩ := hspec2
      simp only [Prod.mk.injEq] at hG
      have hst := handle_raw_data_state s _ v s1 hh
      have hvals : valsOf s (alignedWords (buf.drop (4 - s.remainder_seq.length)))
          = some vs1 := by
        rw [← valsOf_congr s1 s hst.1 hst.2.1 hst.2.2]
        exact hvals1
      have hsv : sampleValue s (digital_to_analog
          (s.remainder_seq ++ buf.take (4 - s.remainder_seq.length))) = some v := by
        simp only [sampleValue]
        rw [← hfr, hh]
        rfl
      refine ⟨v :: vs1, ?_, ?_, ?_⟩
      · rw [hwords]
        show (do
          let v2 ← sampleValue s (digital_to_analog
            (s.remainder_seq ++ buf.take (4 - s.remainder_seq.length)))
          let vs2 ← valsOf s (alignedWords (buf.drop (4 - s.remainder_seq.length)))
          return (v2 :: vs2)) = some (v :: vs1)
        rw [hsv, hvals]
        rfl
      · have hlen1 := valsOf_length s _ vs1 hvals
        rw [alignedWords_length, List.length_drop] at hlen1
        simp only [List.length_cons, hlen1]
        omega
      · rw [← havg.1, ← hF.1, ← hF.2.1, ← hG.1, ← hG.2]
        simp only [List.sum_cons, List.length_cons]
        push_cast
        ring

/-- C7 witness: two carried bytes (1, 2) plus the four-byte chunk (3, 4, 5, 6)
resolve exactly one word 67305985 (little-endian of bytes 1 2 3 4), whose
current value 2885625/128 µA is returned as the average of one sample. -/
theorem aggregator_count_and_mean_witness :
    c7State.remainder_len = (c7State.remainder_seq.length : ℤ) ∧
    c7State.remainder_seq.length ≤ 3 ∧
    4 ≤ c7State.remainder_seq.length + [(3 : ℕ), 4, 5, 6].length ∧
    valsOf c7State (alignedWords (c7State.remainder_seq ++ [3, 4, 5, 6]))
      = some [2885625 / 128] ∧
    (average_of_sampling_period c7State [3, 4, 5, 6]).map Prod.fst
      = some ((2885625 / 128 : ℚ) / ((1 : ℕ) : ℚ)) ∧
    (1 : ℕ) = (c7State.remainder_seq.length + [(3 : ℕ), 4, 5, 6].length) / 4 := by
  have h0 : handle_raw_data c7State ((digital_to_analog
      (pySlice (c7State.remainder_seq ++ pySlice [3, 4, 5, 6] 0 (4 - c7State.remainder_len)) 0 4) : ℕ) : ℤ)
      = some (calibValue c7State ⟨(4 : ℤ).toNat, by norm_num⟩ 2052 * 10 ^ 6,
          { c7State with
              rolling_avg := some (calibValue c7State ⟨(4 : ℤ).toNat, by norm_num⟩ 2052),
              rolling_avg4 := some (calibValue c7State ⟨(4 : ℤ).toNat, by norm_num⟩ 2052) }) := by
    rw [show ((digital_to_analog
        (pySlice (c7State.remainder_seq ++ pySlice [3, 4, 5, 6] 0 (4 - c7State.remainder_len)) 0 4) : ℕ) : ℤ)
        = 67305985 from by decide]
    rw [handle_raw_data_eq,
      show min (get_masked_value 67305985 MEAS_RANGE) 5 = 4 from by decide,
      show get_masked_value 67305985 MEAS_ADC * 4 = 2052 from by decide,
      get_adc_result_pos _ _ _ (by decide)]
    rfl
  have havg := average_no_loop _ _ _ _ h0 (by decide)
  have hcv : calibValue c7State ⟨(4 : ℤ).toNat, by norm_num⟩ 2052 * 10 ^ 6
      = 2885625 / 128 := by
    rw [show calibValue c7State ⟨(4 : ℤ).toNat, by norm_num⟩ 2052
        = spec_calibration 1 0 1 0 0 0 1 (1.8 / 163840) 0 2052 from rfl]
    norm_num [spec_calibration]
  obtain ⟨vs, h1, h2, h3⟩ := aggregator_count_and_mean c7State [3, 4, 5, 6] _ _
    rfl (by decide) (by decide) havg
  have hwords : alignedWords (c7State.remainder_seq ++ [3, 4, 5, 6]) = [67305985] := by
    rw [show c7State.remainder_seq ++ [3, 4, 5, 6] = [1, 2, 3, 4, 5, 6] from rfl]
    rw [alignedWords_cons _ (by norm_num)]
    rw [show List.drop 4 [1, 2, 3, 4, 5, 6] = ([5, 6] : List ℕ) from rfl,
      alignedWords_short [5, 6] (by norm_num),
      show digital_to_analog (List.take 4 [1, 2, 3, 4, 5, 6]) = 67305985 from by decide]
  have hsv : sampleValue c7State 67305985 = some (2885625 / 128) := by
    simp only [sampleValue]
    rw [show ((67305985 : ℕ) : ℤ) = (67305985 : ℤ) from rfl]
    rw [handle_raw_data_eq,
      show min (get_masked_value 67305985 MEAS_RANGE) 5 = 4 from by decide,
      show get_masked_value 67305985 MEAS_ADC * 4 = 2052 from by decide,
      get_adc_result_pos _ _ _ (by decide)]
    simp only [Option.map_some']
    rw [hcv]
  have hvals2 : valsOf c7State [67305985] = some [2885625 / 128] := by
    show (do
      let v2 ← sampleValue c7State 67305985
      let vs2 ← valsOf c7State []
      return (v2 :: vs2)) = some [2885625 / 128]
    rw [hsv]
    rfl
  have hvsw : valsOf c7State (alignedWords (c7State.remainder_seq ++ [3, 4, 5, 6]))
      = some [2885625 / 128] := by
    rw [hwords]
    exact hvals2
  have hvs : vs = [2885625 / 128] := by
    have h4 := h1
    rw [hvsw] at h4
    exact (Option.some.inj h4).symm
  refine ⟨rfl, by decide, by decide, hvsw, ?_, ?_⟩
  · rw [havg]
    simp only [Option.map_some']
    rw [show (0 : ℚ) + calibValue c7State ⟨(4 : ℤ).toNat, by norm_num⟩ 2052 * 10 ^ 6
        = 2885625 / 128 from by rw [← hcv]; ring]
  · have h5 := h2
    rw [hvs] at h5
    simpa using h5.symm

/-- C9. The word handed to the bitfield decoder is the unsigned little-endian
interpretation of the 4 bytes: int.from_bytes with byteorder little gives
b0 + 256 b1 + 65536 b2 + 16777216 b3. -/
theorem little_endian_word_assembly (b0 b1 b2 b3 : ℕ) :
    digital_to_analog [b0, b1, b2, b3]
      = b0 + 256 * b1 + 65536 * b2 + 16777216 * b3 := by
  simp [digital_to_analog]
  ring

/-- C10. `_generate_mask(8, 24)` stores the logic mask two-complement-negated
as -16777216 (bit 31 of 0xFF000000 is set), and the sign-extended Python `&`
with that negative mask still clears exactly the low 24 bits, so the masked
value equals the top byte for every 32-bit word. -/
theorem logic_mask_negated_but_correct :
    MEAS_LOGIC.mask = -16777216 ∧
    ∀ v : ℕ, v < 2 ^ 32 →
      get_masked_value (v : ℤ) MEAS_LOGIC = (((v >>> 24) &&& 0xFF : ℕ) : ℤ) :=
  ⟨by decide, fun v hv => logic_extract v hv⟩

/-- C10 witness: instantiation at the 32-bit word 0xABCDEF12. -/
theorem logic_mask_negated_but_correct_witness :
    (0xABCDEF12 : ℕ) < 2 ^ 32 ∧
    get_masked_value ((0xABCDEF12 : ℕ) : ℤ) MEAS_LOGIC
      = ((((0xABCDEF12 : ℕ) >>> 24) &&& 0xFF : ℕ) : ℤ) :=
  ⟨by norm_num, logic_mask_negated_but_correct.2 0xABCDEF12 (by norm_num)⟩

end PPK2
